import Mathlib

/-!
# Verification of the backtracking Sudoku solver core

This development embeds the solver core of the repository (the `isValid`
validator, the `solveSudoku` backtracking search, and the `checkSolution`
completeness/conflict checker) as pure Lean functions and proves the spec's
claims about them.

The board is a 9×9 grid of cells, each empty (`none`) or holding a number
(`some v`), mirroring the TypeScript `BoardType = (number | null)[][]`.
`solveSudoku` in the source is an `async` function that returns only a
boolean; every placement and removal is written into a fresh copy
(`const newBoard = [...board]; newBoard[row] = [...newBoard[row]]`) and made
observable via `setBoard` snapshots.  We therefore embed the solver as a
function returning the boolean result together with the list of emitted
snapshots, in emission order.
-/

set_option maxHeartbeats 1000000
set_option maxRecDepth 100000

namespace Sudoku

/-- A board position: (row, column), each in `[0,8]`. -/
abbrev Pos : Type := Fin 9 × Fin 9

/-- A board: 9×9 grid of cells, each `none` (empty) or `some v`.
Mirrors `BoardType = (number | null)[][]` with in-bounds indices. -/
abbrev Board : Type := Fin 9 → Fin 9 → Option Nat

/-- Writing a single cell: the JS `newBoard[row][col] = v` on a fresh copy
of the outer array and of row `row` — the result differs from `b` exactly
at `(row, col)`. -/
def place (b : Board) (row col : Fin 9) (v : Option Nat) : Board :=
  fun r c => if r = row ∧ c = col then v else b r c

/-- The 9 positions of row `r`, in column order (the row scan of the code). -/
def rowCells (r : Fin 9) : List Pos :=
  (List.finRange 9).map fun c => (r, c)

/-- The 9 positions of column `c`, in row order (the column scan of the code). -/
def colCells (c : Fin 9) : List Pos :=
  (List.finRange 9).map fun r => (r, c)

/-- The 9 positions of the 3×3 box with box-row `br` and box-column `bc`,
in the row-major order the code scans them. -/
def boxUnit (br bc : Fin 3) : List Pos :=
  (List.finRange 3).flatMap fun i =>
    (List.finRange 3).map fun j =>
      ((⟨br.val * 3 + i.val, by omega⟩ : Fin 9), (⟨bc.val * 3 + j.val, by omega⟩ : Fin 9))

/-- Box row index of a row: `Math.floor(row / 3)`. -/
def boxIdx (r : Fin 9) : Fin 3 := ⟨r.val / 3, by omega⟩

/-- The box containing `(row, col)`: the code scans rows
`boxStartRow .. boxStartRow+2` with `boxStartRow = Math.floor(row/3)*3`,
and likewise for columns. -/
def boxCellsAt (row col : Fin 9) : List Pos :=
  boxUnit (boxIdx row) (boxIdx col)

/-- All 27 units (9 rows, 9 columns, 9 boxes), rows first, then columns,
then boxes in the order the checker scans them. -/
def allUnits : List (List Pos) :=
  ((List.finRange 9).map rowCells)
    ++ ((List.finRange 9).map colCells)
    ++ ((List.finRange 3).flatMap fun br => (List.finRange 3).map fun bc => boxUnit br bc)

/-- All 81 positions in row-major order (row 0..8, column 0..8), the scan
order of the solver's outer double loop. -/
def allPositions : List Pos :=
  (List.finRange 9).flatMap fun r => (List.finRange 9).map fun c => (r, c)

/-- `isValid(board, row, col, num)` of the source: scan the 9 cells of the
row, then of the column, then of the box, returning `false` on any exact
match of `num`.  Note the scans include the cell `(row, col)` itself. -/
def isValid (b : Board) (row col : Fin 9) (num : Nat) : Bool :=
  ((List.finRange 9).all fun x => !(b row x == some num)) &&
  ((List.finRange 9).all fun x => !(b x col == some num)) &&
  ((boxCellsAt row col).all fun p => !(b p.1 p.2 == some num))

/-- The candidate values `1..9` tried in ascending order by the solver. -/
def nums : List Nat := [1, 2, 3, 4, 5, 6, 7, 8, 9]

/-- First empty cell in row-major order, if any: the solver's
`for row … for col … if (board[row][col] === null)` search. -/
def findEmpty (b : Board) : Option Pos :=
  allPositions.find? fun p => b p.1 p.2 == none

/-- The candidate loop `for (let num = 1; num <= 9; num++)` of `solveSudoku`
at the first empty cell `(row, col)`, parametrised by the recursive call
`solveRest` on the rest of the board.  Returns `none` if a recursive call
runs out of fuel, otherwise the boolean result and the emitted snapshots in
order: on a valid candidate the placed board is emitted, the recursion's
snapshots follow, and if the recursion fails the backtracked board
(`newBoard[row][col] = null`) is emitted before the next candidate. -/
def tryNums (solveRest : Board → Option (Bool × List Board)) (b : Board)
    (row col : Fin 9) : List Nat → Option (Bool × List Board)
  | [] => some (false, [])
  | num :: rest =>
    if isValid b row col num then
      let b1 := place b row col (some num)
      match solveRest b1 with
      | none => none
      | some (true, snaps) => some (true, b1 :: snaps)
      | some (false, snaps) =>
        match tryNums solveRest b row col rest with
        | none => none
        | some (res, snaps2) =>
          some (res, (b1 :: snaps) ++ (place b1 row col none :: snaps2))
    else
      tryNums solveRest b row col rest

/-- Fuelled embedding of `solveSudoku`: if no empty cell exists the board is
reported solved with no emission; otherwise the candidate loop runs at the
first empty cell.  `none` means the fuel was exhausted; we prove below that
fuel `emptyCount b + 1` (hence `82`) always suffices. -/
def solveFuel : Nat → Board → Option (Bool × List Board)
  | 0, _ => none
  | fuel + 1, b =>
    match findEmpty b with
    | none => some (true, [])
    | some (row, col) => tryNums (solveFuel fuel) b row col nums

/-- `solveSudoku(board)`: the source returns only a boolean; the solved
board is observable only through the emitted snapshots.  Fuel `82` exceeds
the maximal number of empty cells (81), so the default is never used. -/
def solveSudoku (b : Board) : Bool × List Board :=
  (solveFuel 82 b).getD (false, [])

/-- Last element of a list of boards, with a default. -/
def lastD : List Board → Board → Board
  | [], d => d
  | a :: t, _ => lastD t a

/-- The board the caller observes at the end of a run of `solveSudoku`:
the last emitted snapshot, or the starting board if nothing was emitted. -/
def resultBoard (b : Board) : Board :=
  lastD (solveSudoku b).2 b

/-- The array the caller passed to `solveSudoku`, after the call returns.
Modelled from the code: `solveSudoku` writes only into fresh copies
(`const newBoard = [...board]; newBoard[row] = [...newBoard[row]]`, lines
159–161) and returns only a boolean, so the caller's array is unchanged. -/
def callerBoardAfterSolve (b : Board) : Board := b

/-- Number of empty cells of a board. -/
def emptyCount (b : Board) : Nat :=
  (Finset.univ.filter fun p : Pos => b p.1 p.2 = none).card

/-- JavaScript truthiness of a cell: `null` and `0` are falsy. -/
def truthy : Option Nat → Bool
  | none => false
  | some v => v != 0

/-- The conflict marking the checker performs while scanning one unit `u`
(a row, column, or box) in its scan order: at each cell holding a truthy
`value`, if the value was already seen at an earlier cell of the unit
(`seen.has(value)`), every position of the unit currently holding that
value is added. -/
def unitConflicts (b : Board) (u : List Pos) : List Pos :=
  u.flatMap fun p =>
    match b p.1 p.2 with
    | none => []
    | some v =>
      if v ≠ 0 ∧ ((u.takeWhile fun q => q ≠ p).any fun q => b q.1 q.2 == some v) then
        u.filter fun q => b q.1 q.2 == some v
      else
        []

/-- The conflict positions collected by `checkSolution`: rows first, then
columns, then boxes, each unit scanned in the code's order.  (The code
collects them in a `Set` of strings; the claims are about membership, which
the set only deduplicates.) -/
def conflictCells (b : Board) : List Pos :=
  allUnits.flatMap fun u => unitConflicts b u

/-- The completeness scan of `checkSolution`: `isComplete` is false iff some
cell is falsy (`!board[row][col]`). -/
def isCompleteB (b : Board) : Bool :=
  allPositions.all fun p => truthy (b p.1 p.2)

/-- `checkSolution()`: returns `isValid = isComplete && conflicts.size === 0`
together with the conflict positions. -/
def checkSolution (b : Board) : Bool × List Pos :=
  (isCompleteB b && (conflictCells b).isEmpty, conflictCells b)

/-- Data-model invariant: every non-empty cell holds a value in `[1,9]`. -/
def cellOK : Option Nat → Prop
  | none => True
  | some v => 1 ≤ v ∧ v ≤ 9

/-- A well-formed board per the data model: cells are in `[1,9]` or empty. -/
def wellFormed (b : Board) : Prop :=
  ∀ r c, cellOK (b r c)

/-- No two distinct non-empty cells of a common unit (row, column, or box)
hold the same value. -/
def noDups (b : Board) : Prop :=
  ∀ u ∈ allUnits, ∀ p ∈ u, ∀ q ∈ u,
    p ≠ q → b p.1 p.2 = b q.1 q.2 → b p.1 p.2 = none

/-- The board has no empty cells. -/
def completeB (b : Board) : Prop :=
  ∀ r c, b r c ≠ none

/-- A solved board: every row, column, and box contains each of the values
`1..9` exactly once. -/
def isSolved (b : Board) : Prop :=
  ∀ u ∈ allUnits, ∀ v ∈ nums,
    (u.filter fun p => b p.1 p.2 == some v).length = 1

/-- `s` extends `b`: every non-empty cell of `b` is unchanged in `s`. -/
def extendsB (b s : Board) : Prop :=
  ∀ r c, b r c ≠ none → s r c = b r c

/-- `b` has a valid completion: some solved board assigning values only to
the empty cells of `b`. -/
def hasCompletion (b : Board) : Prop :=
  ∃ s, extendsB b s ∧ isSolved s

/-- The property claimed of `isValid` by the spec: `v` occurs in the row,
column, or box of `(r,c)` at some cell *other than* `(r,c)` itself. -/
def occursElsewhere (b : Board) (row col : Fin 9) (v : Nat) : Prop :=
  (∃ x, x ≠ col ∧ b row x = some v) ∨
  (∃ x, x ≠ row ∧ b x col = some v) ∨
  (∃ p ∈ boxCellsAt row col, p ≠ (row, col) ∧ b p.1 p.2 = some v)

/-- `v` occurs somewhere in the row, column, or box of `(r,c)` — including
possibly at `(r,c)` itself, which the code's scans do not skip. -/
def occursInUnits (b : Board) (row col : Fin 9) (v : Nat) : Prop :=
  (∃ x, b row x = some v) ∨
  (∃ x, b x col = some v) ∨
  (∃ p ∈ boxCellsAt row col, b p.1 p.2 = some v)

instance (o : Option Nat) : Decidable (cellOK o) :=
  match o with
  | none => isTrue trivial
  | some v => inferInstanceAs (Decidable (1 ≤ v ∧ v ≤ 9))

instance (b : Board) : Decidable (wellFormed b) := by
  unfold wellFormed
  infer_instance

instance (b : Board) : Decidable (noDups b) := by
  unfold noDups
  infer_instance

instance (b : Board) : Decidable (completeB b) := by
  unfold completeB
  infer_instance

instance (b : Board) : Decidable (isSolved b) := by
  unfold isSolved
  infer_instance

instance (b s : Board) : Decidable (extendsB b s) := by
  unfold extendsB
  infer_instance

instance (b : Board) (row col : Fin 9) (v : Nat) :
    Decidable (occursElsewhere b row col v) := by
  unfold occursElsewhere
  infer_instance

instance (b : Board) (row col : Fin 9) (v : Nat) :
    Decidable (occursInUnits b row col v) := by
  unfold occursInUnits
  infer_instance

/-- Board built from a list of rows, `0` encoding an empty cell. -/
def ofRows (rows : List (List Nat)) : Board := fun r c =>
  match (rows.get? r.val).bind fun row => row.get? c.val with
  | none => none
  | some 0 => none
  | some v => some v

/-- The board with every cell empty. -/
def emptyBoard : Board := fun _ _ => none

/-- The classic solved reference grid of the spec. -/
def solvedGrid : Board := ofRows
  [[5, 3, 4, 6, 7, 8, 9, 1, 2],
   [6, 7, 2, 1, 9, 5, 3, 4, 8],
   [1, 9, 8, 3, 4, 2, 5, 6, 7],
   [8, 5, 9, 7, 6, 1, 4, 2, 3],
   [4, 2, 6, 8, 5, 3, 7, 9, 1],
   [7, 1, 3, 9, 2, 4, 8, 5, 6],
   [9, 6, 1, 5, 3, 7, 2, 8, 4],
   [2, 8, 7, 4, 1, 9, 6, 3, 5],
   [3, 4, 5, 2, 8, 6, 1, 7, 9]]

/-- The solved reference grid with cell `(0,0)` (its `5`) emptied. -/
def nearlySolvedGrid : Board := place solvedGrid 0 0 none

/-- A complete board with every cell holding `5` (all units in conflict). -/
def fullBoard5 : Board := fun _ _ => some 5

/-- An otherwise empty board with a `5` at `(0,0)`. -/
def single5Board : Board := place emptyBoard 0 0 (some 5)

/-- An otherwise empty board with a `5` at `(0,0)` and at `(0,3)`. -/
def dupRow5 : Board := place single5Board 0 3 (some 5)

/-- Invariant transported from a search board to a board derived from it:
givens are preserved, and freedom from duplicates and well-formedness are
inherited. -/
def inherits (b s : Board) : Prop :=
  extendsB b s ∧ (noDups b → noDups s) ∧ (wellFormed b → wellFormed s)

/-! ## Basic lemmas about `place`, positions, and units -/

lemma place_self (b : Board) (row col : Fin 9) (v : Option Nat) :
    place b row col v row col = v := by
  simp [place]

lemma place_other (b : Board) (row col : Fin 9) (v : Option Nat) {r c : Fin 9}
    (h : ¬(r = row ∧ c = col)) : place b row col v r c = b r c := by
  simp [place, h]

lemma place_place_none (b : Board) (row col : Fin 9) (v : Option Nat)
    (hb : b row col = none) :
    place (place b row col v) row col none = b := by
  funext r c
  by_cases h : r = row ∧ c = col
  · obtain ⟨hr, hc⟩ := h
    subst hr; subst hc
    simp [place, hb]
  · simp [place, h]

lemma mem_allPositions (p : Pos) : p ∈ allPositions := by
  rcases p with ⟨r, c⟩
  simp [allPositions]

lemma findEmpty_none_iff (b : Board) :
    findEmpty b = none ↔ ∀ r c, b r c ≠ none := by
  constructor
  · intro h r c
    have := List.find?_eq_none.mp h (r, c) (mem_allPositions _)
    simpa using this
  · intro h
    apply List.find?_eq_none.mpr
    intro p _
    simpa using h p.1 p.2

lemma findEmpty_some {b : Board} {p : Pos} (h : findEmpty b = some p) :
    b p.1 p.2 = none := by
  have := List.find?_some h
  simpa using this

lemma isValid_true_iff (b : Board) (row col : Fin 9) (num : Nat) :
    isValid b row col num = true ↔
      (∀ x, b row x ≠ some num) ∧ (∀ x, b x col ≠ some num) ∧
      (∀ p ∈ boxCellsAt row col, b p.1 p.2 ≠ some num) := by
  simp [isValid, List.all_eq_true]
  tauto

lemma isValid_false_iff (b : Board) (row col : Fin 9) (num : Nat) :
    isValid b row col num = false ↔ occursInUnits b row col num := by
  constructor
  · intro hf
    by_contra hocc
    rw [occursInUnits] at hocc
    push_neg at hocc
    obtain ⟨h1, h2, h3⟩ := hocc
    have ht : isValid b row col num = true :=
      (isValid_true_iff _ _ _ _).mpr ⟨fun x => h1 x, fun x => h2 x, fun p hp => h3 p hp⟩
    rw [ht] at hf
    cases hf
  · intro hocc
    cases hv : isValid b row col num with
    | false => rfl
    | true =>
      obtain ⟨h1, h2, h3⟩ := (isValid_true_iff _ _ _ _).mp hv
      rcases hocc with ⟨x, hx⟩ | ⟨x, hx⟩ | ⟨p, hp, hpv⟩
      · exact absurd hx (h1 x)
      · exact absurd hx (h2 x)
      · exact absurd hpv (h3 p hp)

lemma emptyCount_le (b : Board) : emptyCount b ≤ 81 := by
  have h := Finset.card_filter_le (Finset.univ : Finset Pos)
    (fun p : Pos => b p.1 p.2 = none)
  simpa [emptyCount] using h

lemma emptyCount_place_lt (b : Board) (row col : Fin 9) (num : Nat)
    (hb : b row col = none) :
    emptyCount (place b row col (some num)) < emptyCount b := by
  have hmem : ((row, col) : Pos) ∈
      (Finset.univ.filter fun p : Pos => b p.1 p.2 = none) := by
    simp [hb]
  have hset : (Finset.univ.filter fun p : Pos =>
      place b row col (some num) p.1 p.2 = none) =
      (Finset.univ.filter fun p : Pos => b p.1 p.2 = none).erase (row, col) := by
    ext p
    rcases p with ⟨r, c⟩
    by_cases h : r = row ∧ c = col
    · obtain ⟨hr, hc⟩ := h
      subst hr; subst hc
      simp [place]
    · have hne : ((r, c) : Pos) ≠ (row, col) := by
        intro hEq
        apply h
        exact ⟨congrArg Prod.fst hEq, congrArg Prod.snd hEq⟩
      simp [place, h, hne]
  rw [emptyCount, emptyCount, hset, Finset.card_erase_of_mem hmem]
  have hpos : 0 < (Finset.univ.filter fun p : Pos => b p.1 p.2 = none).card :=
    Finset.card_pos.mpr ⟨(row, col), hmem⟩
  omega

lemma allUnits_nodup : ∀ u ∈ allUnits, u.Nodup := by decide

lemma allUnits_length : ∀ u ∈ allUnits, u.length = 9 := by decide

lemma self_mem_rowCells : ∀ p : Pos, p ∈ rowCells p.1 := by decide

lemma self_mem_colCells : ∀ p : Pos, p ∈ colCells p.2 := by decide

lemma self_mem_boxCellsAt : ∀ p : Pos, p ∈ boxCellsAt p.1 p.2 := by decide

lemma rowCells_mem_allUnits : ∀ r, rowCells r ∈ allUnits := by decide

lemma colCells_mem_allUnits : ∀ c, colCells c ∈ allUnits := by decide

lemma boxCellsAt_mem_allUnits : ∀ r c, boxCellsAt r c ∈ allUnits := by decide

lemma mem_rowCells_iff : ∀ (p : Pos) (r : Fin 9), p ∈ rowCells r ↔ p.1 = r := by decide

lemma mem_colCells_iff : ∀ (p : Pos) (c : Fin 9), p ∈ colCells c ↔ p.2 = c := by decide

/-- Any two positions of a common unit are visible to each other through one
of the three scans of `isValid`. -/
lemma mem_unit_scan : ∀ u ∈ allUnits, ∀ p ∈ u, ∀ q ∈ u,
    q.1 = p.1 ∨ q.2 = p.2 ∨ q ∈ boxCellsAt p.1 p.2 := by decide

lemma mem_nums_iff (v : Nat) : v ∈ nums ↔ 1 ≤ v ∧ v ≤ 9 := by
  simp [nums]
  omega

/-- Two distinct members of a list both satisfying the filter predicate
force the filtered length to be at least two. -/
lemma two_le_filter_length {u : List Pos} {f : Pos → Bool} {p q : Pos}
    (hp : p ∈ u) (hq : q ∈ u) (hne : p ≠ q)
    (hfp : f p = true) (hfq : f q = true) :
    2 ≤ (u.filter f).length := by
  have hp' : p ∈ u.filter f := List.mem_filter.mpr ⟨hp, hfp⟩
  have hq' : q ∈ u.filter f := List.mem_filter.mpr ⟨hq, hfq⟩
  have hsub : ({p, q} : Finset Pos) ⊆ (u.filter f).toFinset := by
    intro x hx
    rcases Finset.mem_insert.mp hx with h | h
    · subst h
      exact List.mem_toFinset.mpr hp'
    · rcases Finset.mem_singleton.mp h with h
      subst h
      exact List.mem_toFinset.mpr hq'
  calc 2 = ({p, q} : Finset Pos).card := (Finset.card_pair hne).symm
    _ ≤ (u.filter f).toFinset.card := Finset.card_le_card hsub
    _ ≤ (u.filter f).length := (u.filter f).toFinset_card_le

/-! ## Counting lemmas for units -/

/-- A filtered list of length at least two over a duplicate-free list yields
two distinct members satisfying the predicate. -/
lemma filter_two_distinct {u : List Pos} {f : Pos → Bool} (hnd : u.Nodup)
    (h2 : 2 ≤ (u.filter f).length) :
    ∃ p q, p ∈ u ∧ q ∈ u ∧ p ≠ q ∧ f p = true ∧ f q = true := by
  cases hl : u.filter f with
  | nil => rw [hl] at h2; simp at h2
  | cons p t =>
    cases t with
    | nil => rw [hl] at h2; simp at h2
    | cons q t' =>
      have hnodup : (u.filter f).Nodup := hnd.filter f
      rw [hl] at hnodup
      have hpq : p ≠ q := by
        intro h
        subst h
        exact (List.nodup_cons.mp hnodup).1 (List.mem_cons_self _ _)
      have hpmem : p ∈ u.filter f := by
        rw [hl]
        exact List.mem_cons_self _ _
      have hqmem : q ∈ u.filter f := by
        rw [hl]
        exact List.mem_cons_of_mem _ (List.mem_cons_self _ _)
      exact ⟨p, q, (List.mem_filter.mp hpmem).1, (List.mem_filter.mp hqmem).1, hpq,
        (List.mem_filter.mp hpmem).2, (List.mem_filter.mp hqmem).2⟩

/-- In a 9-cell unit whose cells are all filled with values in `[1,9]`, no
two cells sharing a value, every value `1..9` occurs exactly once. -/
lemma unit_counts_of_filled_distinct {b : Board} {u : List Pos}
    (hnd : u.Nodup) (hlen : u.length = 9)
    (hfill : ∀ p ∈ u, ∃ v, 1 ≤ v ∧ v ≤ 9 ∧ b p.1 p.2 = some v)
    (hdist : ∀ p ∈ u, ∀ q ∈ u, p ≠ q → b p.1 p.2 ≠ b q.1 q.2) :
    ∀ v ∈ nums, (u.filter fun p => b p.1 p.2 == some v).length = 1 := by
  intro v hv
  have hginj : Set.InjOn (fun p : Pos => (b p.1 p.2).getD 0) u.toFinset := by
    intro p hp q hq hpq
    by_contra hne
    have hp' : p ∈ u := List.mem_toFinset.mp hp
    have hq' : q ∈ u := List.mem_toFinset.mp hq
    obtain ⟨vp, _, _, hbp⟩ := hfill p hp'
    obtain ⟨vq, _, _, hbq⟩ := hfill q hq'
    apply hdist p hp' q hq' hne
    simp only [hbp, hbq] at hpq ⊢
    simpa using hpq
  have hcardt : u.toFinset.card = 9 := by
    rw [List.toFinset_card_of_nodup hnd]
    exact hlen
  have himage : u.toFinset.image (fun p : Pos => (b p.1 p.2).getD 0) = Finset.Icc 1 9 := by
    apply Finset.eq_of_subset_of_card_le
    · intro x hx
      obtain ⟨p, hp, hpx⟩ := Finset.mem_image.mp hx
      obtain ⟨vp, h1, h9, hbp⟩ := hfill p (List.mem_toFinset.mp hp)
      have hxv : x = vp := by
        rw [← hpx]
        simp [hbp]
      subst hxv
      exact Finset.mem_Icc.mpr ⟨h1, h9⟩
    · rw [Finset.card_image_of_injOn hginj, hcardt]
      simp
  have hvmem : v ∈ Finset.Icc 1 9 := by
    rw [mem_nums_iff] at hv
    exact Finset.mem_Icc.mpr hv
  rw [← himage] at hvmem
  obtain ⟨p, hp, hpv⟩ := Finset.mem_image.mp hvmem
  have hp' : p ∈ u := List.mem_toFinset.mp hp
  obtain ⟨vp, _, _, hbp⟩ := hfill p hp'
  have hbpv : b p.1 p.2 = some v := by
    rw [hbp]
    simp only [hbp] at hpv
    simpa using congrArg some hpv
  have hmemfil : p ∈ u.filter fun q => b q.1 q.2 == some v :=
    List.mem_filter.mpr ⟨hp', by simp [hbpv]⟩
  have hge1 : 0 < (u.filter fun q => b q.1 q.2 == some v).length :=
    List.length_pos_of_mem hmemfil
  by_contra hne1
  have h2 : 2 ≤ (u.filter fun q => b q.1 q.2 == some v).length := by omega
  obtain ⟨p1, q1, hp1, hq1, hne', hf1, hf2⟩ := filter_two_distinct hnd h2
  simp only [beq_iff_eq] at hf1 hf2
  exact hdist p1 hp1 q1 hq1 hne' (by rw [hf1, hf2])

/-- In a 9-cell unit in which every value `1..9` occurs exactly once, every
cell is filled with some value in `1..9`. -/
lemma unit_complete_of_counts {b : Board} {u : List Pos}
    (hnd : u.Nodup) (hlen : u.length = 9)
    (hcnt : ∀ v ∈ nums, (u.filter fun p => b p.1 p.2 == some v).length = 1) :
    ∀ p ∈ u, ∃ v ∈ nums, b p.1 p.2 = some v := by
  have hcardt : u.toFinset.card = 9 := by
    rw [List.toFinset_card_of_nodup hnd]
    exact hlen
  have hcard1 : ∀ v ∈ nums.toFinset,
      (u.toFinset.filter fun p => b p.1 p.2 = some v).card = 1 := by
    intro v hv
    have heq : u.toFinset.filter (fun p => b p.1 p.2 = some v) =
        (u.filter fun p => b p.1 p.2 == some v).toFinset := by
      ext x
      simp [List.mem_filter]
    rw [heq, List.toFinset_card_of_nodup (hnd.filter _)]
    exact hcnt v (List.mem_toFinset.mp hv)
  have hdisj : ∀ v ∈ nums.toFinset, ∀ w ∈ nums.toFinset, v ≠ w →
      Disjoint (u.toFinset.filter fun p => b p.1 p.2 = some v)
        (u.toFinset.filter fun p => b p.1 p.2 = some w) := by
    intro v _ w _ hvw
    rw [Finset.disjoint_left]
    intro a hav haw
    have h1 : b a.1 a.2 = some v := (Finset.mem_filter.mp hav).2
    have h2 : b a.1 a.2 = some w := (Finset.mem_filter.mp haw).2
    rw [h1] at h2
    exact hvw (Option.some.inj h2)
  have hbiun : (nums.toFinset.biUnion fun v =>
      u.toFinset.filter fun p => b p.1 p.2 = some v) = u.toFinset := by
    apply Finset.eq_of_subset_of_card_le
    · intro p hp
      obtain ⟨v, _, hpf⟩ := Finset.mem_biUnion.mp hp
      exact (Finset.mem_filter.mp hpf).1
    · rw [Finset.card_biUnion hdisj]
      have hsum : (∑ v ∈ nums.toFinset,
          (u.toFinset.filter fun p => b p.1 p.2 = some v).card) =
          ∑ _v ∈ nums.toFinset, 1 :=
        Finset.sum_congr rfl hcard1
      rw [hsum, Finset.sum_const, smul_eq_mul, mul_one, hcardt]
      decide
  intro p hp
  have hpt : p ∈ u.toFinset := List.mem_toFinset.mpr hp
  rw [← hbiun] at hpt
  obtain ⟨v, hv, hpf⟩ := Finset.mem_biUnion.mp hpt
  exact ⟨v, List.mem_toFinset.mp hv, (Finset.mem_filter.mp hpf).2⟩

/-! ## Properties of solved boards -/

lemma isSolved_cell_values {s : Board} (hs : isSolved s) (r c : Fin 9) :
    ∃ v ∈ nums, s r c = some v := by
  have hu : rowCells r ∈ allUnits := rowCells_mem_allUnits r
  have hp : ((r, c) : Pos) ∈ rowCells r := by
    rw [mem_rowCells_iff]
  exact unit_complete_of_counts (allUnits_nodup _ hu) (allUnits_length _ hu)
    (hs _ hu) (r, c) hp

lemma isSolved_complete {s : Board} (hs : isSolved s) : completeB s := by
  intro r c
  obtain ⟨v, _, hv⟩ := isSolved_cell_values hs r c
  rw [hv]
  exact Option.some_ne_none v

lemma isSolved_wellFormed {s : Board} (hs : isSolved s) : wellFormed s := by
  intro r c
  obtain ⟨v, hvn, hv⟩ := isSolved_cell_values hs r c
  rw [hv]
  exact (mem_nums_iff v).mp hvn

lemma isSolved_no_unit_repeat {s : Board} (hs : isSolved s)
    {u : List Pos} (hu : u ∈ allUnits) {p q : Pos} (hp : p ∈ u) (hq : q ∈ u)
    (hne : p ≠ q) {v : Nat} (hpv : s p.1 p.2 = some v) (hqv : s q.1 q.2 = some v) :
    False := by
  obtain ⟨w, hwn, hw⟩ := isSolved_cell_values hs p.1 p.2
  rw [hpv] at hw
  have hvw : v = w := Option.some.inj hw
  subst hvw
  have h2 : 2 ≤ (u.filter fun x => s x.1 x.2 == some v).length :=
    two_le_filter_length hp hq hne (by simp [hpv]) (by simp [hqv])
  have h1 := hs u hu v hwn
  omega

lemma isSolved_noDups {s : Board} (hs : isSolved s) : noDups s := by
  intro u hu p hp q hq hne heq
  by_contra hnone
  obtain ⟨v, hv⟩ := Option.ne_none_iff_exists'.mp hnone
  exact isSolved_no_unit_repeat hs hu hp hq hne hv (heq ▸ hv)

lemma isSolved_of_complete_noDups_wf {s : Board}
    (hc : completeB s) (hnd : noDups s) (hwf : wellFormed s) : isSolved s := by
  intro u hu
  apply unit_counts_of_filled_distinct (allUnits_nodup _ hu) (allUnits_length _ hu)
  · intro p _
    obtain ⟨v, hv⟩ := Option.ne_none_iff_exists'.mp (hc p.1 p.2)
    have hok := hwf p.1 p.2
    rw [hv] at hok
    exact ⟨v, hok.1, hok.2, hv⟩
  · intro p hp q hq hne heq
    have := hnd u hu p hp q hq hne heq
    exact hc p.1 p.2 this

/-! ## Placement preserves the search invariants -/

lemma ne_pair_iff {p : Pos} {row col : Fin 9} :
    p ≠ (row, col) ↔ ¬(p.1 = row ∧ p.2 = col) := by
  simp [Ne, Prod.ext_iff]

/-- A placement that passed the validator introduces no duplicate. -/
lemma noDups_place {b : Board} (hnd : noDups b) {row col : Fin 9} {num : Nat}
    (hb : b row col = none) (hv : isValid b row col num = true) :
    noDups (place b row col (some num)) := by
  obtain ⟨hrow, hcol, hbox⟩ := (isValid_true_iff b row col num).mp hv
  intro u hu p hp q hq hne heq
  by_cases hpc : p = (row, col)
  · exfalso
    subst hpc
    have hq1 : place b row col (some num) q.1 q.2 = some num := by
      rw [← heq]
      simp [place]
    have hqother : b q.1 q.2 = some num := by
      rw [← place_other b row col (some num) (ne_pair_iff.mp (Ne.symm hne))]
      exact hq1
    rcases mem_unit_scan u hu _ hp q hq with h1 | h2 | h3
    · rw [h1] at hqother
      exact hrow q.2 hqother
    · rw [h2] at hqother
      exact hcol q.1 hqother
    · exact hbox q h3 hqother
  · by_cases hqc : q = (row, col)
    · exfalso
      subst hqc
      have hp1 : place b row col (some num) p.1 p.2 = some num := by
        rw [heq]
        simp [place]
      have hpother : b p.1 p.2 = some num := by
        rw [← place_other b row col (some num) (ne_pair_iff.mp hpc)]
        exact hp1
      rcases mem_unit_scan u hu _ hq p hp with h1 | h2 | h3
      · rw [h1] at hpother
        exact hrow p.2 hpother
      · rw [h2] at hpother
        exact hcol p.1 hpother
      · exact hbox p h3 hpother
    · rw [place_other b row col (some num) (ne_pair_iff.mp hpc)] at heq ⊢
      rw [place_other b row col (some num) (ne_pair_iff.mp hqc)] at heq
      exact hnd u hu p hp q hq hne heq

lemma wellFormed_place {b : Board} (hwf : wellFormed b) {row col : Fin 9}
    {num : Nat} (h1 : 1 ≤ num) (h9 : num ≤ 9) :
    wellFormed (place b row col (some num)) := by
  intro r c
  by_cases h : r = row ∧ c = col
  · simpa [place, h] using And.intro h1 h9
  · simpa [place, h] using hwf r c

lemma extendsB_place {b : Board} {row col : Fin 9} (hb : b row col = none)
    (v : Option Nat) : extendsB b (place b row col v) := by
  intro r c hne
  apply place_other
  intro h
  obtain ⟨hr, hc⟩ := h
  subst hr; subst hc
  exact hne hb

lemma extendsB_refl (b : Board) : extendsB b b := fun _ _ _ => rfl

lemma extendsB_trans {a b c : Board} (h1 : extendsB a b) (h2 : extendsB b c) :
    extendsB a c := by
  intro r cc hne
  have hb := h1 r cc hne
  have hbne : b r cc ≠ none := by
    rw [hb]
    exact hne
  rw [h2 r cc hbne, hb]

lemma inherits_refl (b : Board) : inherits b b :=
  ⟨extendsB_refl b, id, id⟩

lemma inherits_trans {a b c : Board} (h1 : inherits a b) (h2 : inherits b c) :
    inherits a c :=
  ⟨extendsB_trans h1.1 h2.1, fun h => h2.2.1 (h1.2.1 h), fun h => h2.2.2 (h1.2.2 h)⟩

/-- Placing a validated candidate from `1..9` at an empty cell inherits the
search invariants. -/
lemma inherits_place {b : Board} {row col : Fin 9} {num : Nat}
    (hb : b row col = none) (hv : isValid b row col num = true)
    (h1 : 1 ≤ num) (h9 : num ≤ 9) :
    inherits b (place b row col (some num)) :=
  ⟨extendsB_place hb _, fun h => noDups_place h hb hv,
    fun h => wellFormed_place h h1 h9⟩

/-! ## Lemmas about `lastD` -/

lemma lastD_cons (a : Board) (t : List Board) (d : Board) :
    lastD (a :: t) d = lastD t a := rfl

lemma lastD_append_cons (xs : List Board) (y : Board) (ys : List Board)
    (d : Board) : lastD (xs ++ y :: ys) d = lastD ys y := by
  induction xs generalizing d with
  | nil => rfl
  | cons x xs ih =>
    rw [List.cons_append, lastD_cons]
    exact ih x

/-! ## The candidate loop -/

/-- If every recursive call the candidate loop can make is fuelled, the loop
itself produces a result. -/
lemma tryNums_isSome {solveRest : Board → Option (Bool × List Board)}
    {b : Board} {row col : Fin 9} (l : List Nat)
    (hrec : ∀ num ∈ l, isValid b row col num = true →
      (solveRest (place b row col (some num))).isSome) :
    (tryNums solveRest b row col l).isSome := by
  induction l with
  | nil => simp [tryNums]
  | cons num rest ih =>
    have ihs := ih fun n hn => hrec n (List.mem_cons_of_mem _ hn)
    by_cases hv : isValid b row col num = true
    · have hs := hrec num (List.mem_cons_self _ _) hv
      rw [Option.isSome_iff_exists] at hs
      obtain ⟨⟨res, snaps⟩, hsr⟩ := hs
      cases res
      · rw [Option.isSome_iff_exists] at ihs
        obtain ⟨⟨res2, snaps2⟩, hrs⟩ := ihs
        simp [tryNums, hv, hsr, hrs]
      · simp [tryNums, hv, hsr]
    · simpa [tryNums, hv] using ihs

/-- Structure of a successful candidate loop: some candidate was validated,
placed, and recursively solved; the emitted snapshots are nonempty and end
with the last snapshot of that successful recursive call. -/
lemma tryNums_success {solveRest : Board → Option (Bool × List Board)}
    {b : Board} {row col : Fin 9} (hb : b row col = none) {l : List Nat}
    {snaps : List Board}
    (h : tryNums solveRest b row col l = some (true, snaps)) :
    ∃ num ∈ l, isValid b row col num = true ∧
      ∃ snaps', solveRest (place b row col (some num)) = some (true, snaps') ∧
        snaps ≠ [] ∧
        lastD snaps b = lastD snaps' (place b row col (some num)) := by
  induction l generalizing snaps with
  | nil => simp [tryNums] at h
  | cons num rest ih =>
    by_cases hv : isValid b row col num = true
    · rw [show tryNums solveRest b row col (num :: rest) =
          (if isValid b row col num then
            match solveRest (place b row col (some num)) with
            | none => none
            | some (true, snaps) => some (true, place b row col (some num) :: snaps)
            | some (false, snaps) =>
              match tryNums solveRest b row col rest with
              | none => none
              | some (res, snaps2) =>
                some (res, (place b row col (some num) :: snaps) ++
                  (place (place b row col (some num)) row col none :: snaps2))
          else tryNums solveRest b row col rest) from rfl, if_pos hv] at h
      cases hsr : solveRest (place b row col (some num)) with
      | none => rw [hsr] at h; cases h
      | some pair =>
        rcases pair with ⟨res', snaps'⟩
        cases res'
        · rw [hsr] at h
          cases htr : tryNums solveRest b row col rest with
          | none => rw [htr] at h; cases h
          | some pair2 =>
            rcases pair2 with ⟨res2, snaps2⟩
            rw [htr] at h
            have hres2 : res2 = true := by
              have := congrArg (fun x => (Option.getD x (false, [])).1) h
              simpa using this
            subst hres2
            obtain ⟨num2, hmem2, hv2, snaps'', hsr2, hne2, hlast2⟩ := ih htr
            refine ⟨num2, List.mem_cons_of_mem _ hmem2, hv2, snaps'', hsr2, ?_, ?_⟩
            · have hsn : snaps = (place b row col (some num) :: snaps') ++
                  (place (place b row col (some num)) row col none :: snaps2) := by
                have := congrArg (fun x => (Option.getD x (false, [])).2) h
                simpa using this.symm
              rw [hsn]
              simp
            · have hsn : snaps = (place b row col (some num) :: snaps') ++
                  (place (place b row col (some num)) row col none :: snaps2) := by
                have := congrArg (fun x => (Option.getD x (false, [])).2) h
                simpa using this.symm
              rw [hsn, lastD_append_cons,
                place_place_none b row col (some num) hb]
              exact hlast2
        · rw [hsr] at h
          have hsn : snaps = place b row col (some num) :: snaps' := by
            have := congrArg (fun x => (Option.getD x (false, [])).2) h
            simpa using this.symm
          refine ⟨num, List.mem_cons_self _ _, hv, snaps', hsr, ?_, ?_⟩
          · rw [hsn]
            simp
          · rw [hsn, lastD_cons]
    · rw [show tryNums solveRest b row col (num :: rest) =
          (if isValid b row col num then
            match solveRest (place b row col (some num)) with
            | none => none
            | some (true, snaps) => some (true, place b row col (some num) :: snaps)
            | some (false, snaps) =>
              match tryNums solveRest b row col rest with
              | none => none
              | some (res, snaps2) =>
                some (res, (place b row col (some num) :: snaps) ++
                  (place (place b row col (some num)) row col none :: snaps2))
          else tryNums solveRest b row col rest) from rfl, if_neg hv] at h
      obtain ⟨num2, hmem2, rest'⟩ := ih h
      exact ⟨num2, List.mem_cons_of_mem _ hmem2, rest'⟩

/-- Unfolding equation for the candidate loop at a nonempty list. -/
lemma tryNums_cons (solveRest : Board → Option (Bool × List Board))
    (b : Board) (row col : Fin 9) (num : Nat) (rest : List Nat) :
    tryNums solveRest b row col (num :: rest) =
      if isValid b row col num then
        match solveRest (place b row col (some num)) with
        | none => none
        | some (true, snaps) => some (true, place b row col (some num) :: snaps)
        | some (false, snaps) =>
          match tryNums solveRest b row col rest with
          | none => none
          | some (res, snaps2) =>
            some (res, (place b row col (some num) :: snaps) ++
              (place (place b row col (some num)) row col none :: snaps2))
      else tryNums solveRest b row col rest := rfl

/-- If some fuelled candidate in the list is validated and recursively
succeeds, and all fuelled recursive calls before it return, the candidate
loop reports success. -/
lemma tryNums_reaches_success {solveRest : Board → Option (Bool × List Board)}
    {b : Board} {row col : Fin 9} {l : List Nat}
    (hsome : ∀ num ∈ l, isValid b row col num = true →
      (solveRest (place b row col (some num))).isSome)
    (hwit : ∃ num ∈ l, isValid b row col num = true ∧
      ∃ snaps', solveRest (place b row col (some num)) = some (true, snaps')) :
    ∃ snaps, tryNums solveRest b row col l = some (true, snaps) := by
  induction l with
  | nil => simp at hwit
  | cons num rest ih =>
    by_cases hv : isValid b row col num = true
    · have hs := hsome num (List.mem_cons_self _ _) hv
      rw [Option.isSome_iff_exists] at hs
      obtain ⟨⟨res, snaps'⟩, hsr⟩ := hs
      cases res
      · have hwit' : ∃ num ∈ rest, isValid b row col num = true ∧
            ∃ snaps', solveRest (place b row col (some num)) = some (true, snaps') := by
          obtain ⟨num2, hmem2, hv2, snaps2, hsr2⟩ := hwit
          rcases List.mem_cons.mp hmem2 with heq | hmem2'
          · subst heq
            rw [hsr2] at hsr
            cases hsr
          · exact ⟨num2, hmem2', hv2, snaps2, hsr2⟩
        obtain ⟨snaps2, htr⟩ :=
          ih (fun n hn => hsome n (List.mem_cons_of_mem _ hn)) hwit'
        refine ⟨(place b row col (some num) :: snaps') ++
          (place (place b row col (some num)) row col none :: snaps2), ?_⟩
        rw [tryNums_cons, if_pos hv, hsr, htr]
      · exact ⟨place b row col (some num) :: snaps', by
          rw [tryNums_cons, if_pos hv, hsr]⟩
    · have hwit' : ∃ num ∈ rest, isValid b row col num = true ∧
          ∃ snaps', solveRest (place b row col (some num)) = some (true, snaps') := by
        obtain ⟨num2, hmem2, hv2, snaps2, hsr2⟩ := hwit
        rcases List.mem_cons.mp hmem2 with heq | hmem2'
        · subst heq
          exact absurd hv2 hv
        · exact ⟨num2, hmem2', hv2, snaps2, hsr2⟩
      obtain ⟨snaps2, htr⟩ :=
        ih (fun n hn => hsome n (List.mem_cons_of_mem _ hn)) hwit'
      refine ⟨snaps2, ?_⟩
      rw [tryNums_cons, if_neg hv]
      exact htr

/-- Every snapshot emitted by the candidate loop inherits the search
invariants from the board the loop started from. -/
lemma tryNums_snaps {solveRest : Board → Option (Bool × List Board)}
    {b : Board} {row col : Fin 9} (hb : b row col = none) {l : List Nat}
    {res : Bool} {snaps : List Board}
    (hl : ∀ num ∈ l, 1 ≤ num ∧ num ≤ 9)
    (hrec : ∀ num ∈ l, ∀ res' snaps', isValid b row col num = true →
      solveRest (place b row col (some num)) = some (res', snaps') →
      ∀ s ∈ snaps', inherits (place b row col (some num)) s)
    (h : tryNums solveRest b row col l = some (res, snaps)) :
    ∀ s ∈ snaps, inherits b s := by
  induction l generalizing res snaps with
  | nil =>
    simp only [tryNums] at h
    cases h
    simp
  | cons num rest ih =>
    rw [tryNums_cons] at h
    by_cases hv : isValid b row col num = true
    · rw [if_pos hv] at h
      have hinh : inherits b (place b row col (some num)) :=
        inherits_place hb hv (hl num (List.mem_cons_self _ _)).1
          (hl num (List.mem_cons_self _ _)).2
      cases hsr : solveRest (place b row col (some num)) with
      | none => rw [hsr] at h; cases h
      | some pair =>
        rcases pair with ⟨res', snaps'⟩
        have hrec1 := hrec num (List.mem_cons_self _ _) res' snaps' hv hsr
        cases res'
        · rw [hsr] at h
          cases htr : tryNums solveRest b row col rest with
          | none => rw [htr] at h; cases h
          | some pair2 =>
            rcases pair2 with ⟨res2, snaps2⟩
            rw [htr] at h
            have hsn : snaps = (place b row col (some num) :: snaps') ++
                (place (place b row col (some num)) row col none :: snaps2) := by
              have := congrArg (fun x => (Option.getD x (false, [])).2) h
              simpa using this.symm
            intro s hs
            rw [hsn] at hs
            rcases List.mem_append.mp hs with hs1 | hs2
            · rcases List.mem_cons.mp hs1 with heq | hs1'
              · subst heq
                exact hinh
              · exact inherits_trans hinh (hrec1 s hs1')
            · rcases List.mem_cons.mp hs2 with heq | hs2'
              · subst heq
                rw [place_place_none b row col (some num) hb]
                exact inherits_refl b
              · exact ih (fun n hn => hl n (List.mem_cons_of_mem _ hn))
                  (fun n hn => hrec n (List.mem_cons_of_mem _ hn)) htr s hs2'
        · rw [hsr] at h
          have hsn : snaps = place b row col (some num) :: snaps' := by
            have := congrArg (fun x => (Option.getD x (false, [])).2) h
            simpa using this.symm
          intro s hs
          rw [hsn] at hs
          rcases List.mem_cons.mp hs with heq | hs'
          · subst heq
            exact hinh
          · exact inherits_trans hinh (hrec1 s hs')
    · rw [if_neg hv] at h
      exact ih (fun n hn => hl n (List.mem_cons_of_mem _ hn))
        (fun n hn => hrec n (List.mem_cons_of_mem _ hn)) h

/-! ## The fuelled solver -/

lemma solveFuel_succ (fuel : Nat) (b : Board) :
    solveFuel (fuel + 1) b =
      match findEmpty b with
      | none => some (true, [])
      | some (row, col) => tryNums (solveFuel fuel) b row col nums := rfl

/-- Fuel exceeding the number of empty cells always produces a result: the
recursion descends only to boards with strictly fewer empty cells. -/
lemma solveFuel_isSome : ∀ (fuel : Nat) (b : Board),
    emptyCount b < fuel → (solveFuel fuel b).isSome := by
  intro fuel
  induction fuel with
  | zero => intro b h; omega
  | succ fuel ih =>
    intro b h
    rw [solveFuel_succ]
    cases hfe : findEmpty b with
    | none => simp
    | some p =>
      rcases p with ⟨row, col⟩
      have hb : b row col = none := findEmpty_some hfe
      apply tryNums_isSome
      intro num _ hv
      apply ih
      have := emptyCount_place_lt b row col num hb
      omega

/-- Soundness of a successful run: the last snapshot (or the input board if
nothing was emitted) is complete and inherits the search invariants. -/
lemma solveFuel_sound : ∀ (fuel : Nat) (b : Board) (snaps : List Board),
    solveFuel fuel b = some (true, snaps) →
    completeB (lastD snaps b) ∧ inherits b (lastD snaps b) := by
  intro fuel
  induction fuel with
  | zero => intro b snaps h; cases h
  | succ fuel ih =>
    intro b snaps h
    rw [solveFuel_succ] at h
    cases hfe : findEmpty b with
    | none =>
      rw [hfe] at h
      simp only [Option.some.injEq, Prod.mk.injEq, true_and] at h
      subst h
      refine ⟨?_, inherits_refl b⟩
      intro r c
      exact (findEmpty_none_iff b).mp hfe r c
    | some p =>
      rcases p with ⟨row, col⟩
      rw [hfe] at h
      have hb : b row col = none := findEmpty_some hfe
      obtain ⟨num, hmem, hv, snaps', hsr, _, hlast⟩ := tryNums_success hb h
      have hnum := (mem_nums_iff num).mp hmem
      obtain ⟨hc', hinh'⟩ := ih (place b row col (some num)) snaps' hsr
      rw [hlast]
      exact ⟨hc', inherits_trans (inherits_place hb hv hnum.1 hnum.2) hinh'⟩

/-- Every snapshot emitted during any run inherits the search invariants
from the starting board. -/
lemma solveFuel_snaps : ∀ (fuel : Nat) (b : Board) (res : Bool) (snaps : List Board),
    solveFuel fuel b = some (res, snaps) → ∀ s ∈ snaps, inherits b s := by
  intro fuel
  induction fuel with
  | zero => intro b res snaps h; cases h
  | succ fuel ih =>
    intro b res snaps h
    rw [solveFuel_succ] at h
    cases hfe : findEmpty b with
    | none =>
      rw [hfe] at h
      simp only [Option.some.injEq, Prod.mk.injEq] at h
      rw [← h.2]
      simp
    | some p =>
      rcases p with ⟨row, col⟩
      rw [hfe] at h
      have hb : b row col = none := findEmpty_some hfe
      exact tryNums_snaps hb (fun num hn => (mem_nums_iff num).mp hn)
        (fun num _ res' snaps' _ hsr => ih (place b row col (some num)) res' snaps' hsr) h

/-- A candidate dictated by an extending solution always passes the
validator on the current board. -/
lemma isValid_of_solution {b s : Board} (hext : extendsB b s) (hsol : isSolved s)
    {row col : Fin 9} (hb : b row col = none) {v : Nat}
    (hsv : s row col = some v) : isValid b row col v = true := by
  rw [isValid_true_iff]
  refine ⟨?_, ?_, ?_⟩
  · intro x hx
    have hxne : ((row, x) : Pos) ≠ (row, col) := by
      intro hEq
      have : x = col := congrArg Prod.snd hEq
      subst this
      rw [hb] at hx
      cases hx
    have hsx : s row x = some v := by
      rw [hext row x (by rw [hx]; simp), hx]
    exact isSolved_no_unit_repeat hsol (rowCells_mem_allUnits row)
      ((mem_rowCells_iff (row, x) row).mpr rfl)
      ((mem_rowCells_iff (row, col) row).mpr rfl) hxne hsx hsv
  · intro x hx
    have hxne : ((x, col) : Pos) ≠ (row, col) := by
      intro hEq
      have : x = row := congrArg Prod.fst hEq
      subst this
      rw [hb] at hx
      cases hx
    have hsx : s x col = some v := by
      rw [hext x col (by rw [hx]; simp), hx]
    exact isSolved_no_unit_repeat hsol (colCells_mem_allUnits col)
      ((mem_colCells_iff (x, col) col).mpr rfl)
      ((mem_colCells_iff (row, col) col).mpr rfl) hxne hsx hsv
  · intro p hp hpx
    have hpne : p ≠ (row, col) := by
      intro hEq
      rw [hEq] at hpx
      rw [hb] at hpx
      cases hpx
    have hsp : s p.1 p.2 = some v := by
      rw [hext p.1 p.2 (by rw [hpx]; simp), hpx]
    exact isSolved_no_unit_repeat hsol (boxCellsAt_mem_allUnits row col)
      hp (self_mem_boxCellsAt (row, col)) hpne hsp hsv

/-- Completeness: with sufficient fuel, a board admitting a completion is
reported solved. -/
lemma solveFuel_complete : ∀ (fuel : Nat) (b : Board),
    emptyCount b < fuel → hasCompletion b →
    ∃ snaps, solveFuel fuel b = some (true, snaps) := by
  intro fuel
  induction fuel with
  | zero => intro b h _; omega
  | succ fuel ih =>
    intro b h hcomp
    cases hfe : findEmpty b with
    | none =>
      refine ⟨[], ?_⟩
      rw [solveFuel_succ, hfe]
    | some p =>
      rcases p with ⟨row, col⟩
      have hb : b row col = none := findEmpty_some hfe
      obtain ⟨s, hext, hsol⟩ := hcomp
      obtain ⟨v, hvn, hsv⟩ := isSolved_cell_values hsol row col
      have hv : isValid b row col v = true := isValid_of_solution hext hsol hb hsv
      have hwit : ∃ num ∈ nums, isValid b row col num = true ∧
          ∃ snaps', solveFuel fuel (place b row col (some num)) = some (true, snaps') := by
        refine ⟨v, hvn, hv, ?_⟩
        apply ih
        · have := emptyCount_place_lt b row col v hb
          omega
        · refine ⟨s, ?_, hsol⟩
          intro r c hne
          by_cases hrc : r = row ∧ c = col
          · obtain ⟨hr, hc⟩ := hrc
            subst hr; subst hc
            rw [place_self, hsv]
          · rw [place_other b row col (some v) hrc]
            rw [place_other b row col (some v) hrc] at hne
            exact hext r c hne
      have hsome : ∀ num ∈ nums, isValid b row col num = true →
          (solveFuel fuel (place b row col (some num))).isSome := by
        intro num _ _
        apply solveFuel_isSome
        have := emptyCount_place_lt b row col num hb
        omega
      obtain ⟨snaps, htr⟩ := tryNums_reaches_success hsome hwit
      refine ⟨snaps, ?_⟩
      rw [solveFuel_succ, hfe]
      exact htr

/-- On a successful run from a board with an empty cell, at least one
snapshot is emitted. -/
lemma solveFuel_success_snaps_ne {fuel : Nat} {b : Board} {snaps : List Board}
    {p : Pos} (h : solveFuel fuel b = some (true, snaps))
    (hfe : findEmpty b = some p) : snaps ≠ [] := by
  cases fuel with
  | zero => cases h
  | succ fuel =>
    rw [solveFuel_succ, hfe] at h
    rcases p with ⟨row, col⟩
    obtain ⟨_, _, _, _, _, hne, _⟩ := tryNums_success (findEmpty_some hfe) h
    exact hne

/-! ## Lifting the fuelled solver to `solveSudoku` -/

lemma solveFuel82_isSome (b : Board) : (solveFuel 82 b).isSome := by
  apply solveFuel_isSome
  have := emptyCount_le b
  omega

lemma solveFuel_eq_solveSudoku (b : Board) :
    solveFuel 82 b = some (solveSudoku b) := by
  obtain ⟨x, hx⟩ := Option.isSome_iff_exists.mp (solveFuel82_isSome b)
  rw [solveSudoku, hx]
  rfl

/-! ## The conflict checker -/

/-- Among two distinct members of a duplicate-free list, one strictly
precedes the other in scan order. -/
lemma takeWhile_order {u : List Pos} (hnd : u.Nodup) {q1 q2 : Pos}
    (h1 : q1 ∈ u) (h2 : q2 ∈ u) (hne : q1 ≠ q2) :
    q1 ∈ u.takeWhile (fun x => x ≠ q2) ∨ q2 ∈ u.takeWhile (fun x => x ≠ q1) := by
  induction u with
  | nil => cases h1
  | cons a t ih =>
    by_cases ha1 : a = q1
    · subst ha1
      left
      rw [List.takeWhile_cons_of_pos (by simpa using hne)]
      exact List.mem_cons_self _ _
    · by_cases ha2 : a = q2
      · subst ha2
        right
        rw [List.takeWhile_cons_of_pos (by simpa using Ne.symm hne)]
        exact List.mem_cons_self _ _
      · have h1' : q1 ∈ t := by
          rcases List.mem_cons.mp h1 with h | h
          · exact absurd h.symm ha1
          · exact h
        have h2' : q2 ∈ t := by
          rcases List.mem_cons.mp h2 with h | h
          · exact absurd h.symm ha2
          · exact h
        rcases ih (List.nodup_cons.mp hnd).2 h1' h2' with h | h
        · left
          rw [List.takeWhile_cons_of_pos (by simpa using ha2)]
          exact List.mem_cons_of_mem _ h
        · right
          rw [List.takeWhile_cons_of_pos (by simpa using ha1)]
          exact List.mem_cons_of_mem _ h

/-- Membership in the conflicts collected over one unit: exactly the
positions of the unit holding a (truthy) value that occurs at least twice
in the unit. -/
lemma mem_unitConflicts {b : Board} {u : List Pos} (hnd : u.Nodup) {p : Pos} :
    p ∈ unitConflicts b u ↔
      ∃ v, v ≠ 0 ∧ b p.1 p.2 = some v ∧ p ∈ u ∧
        2 ≤ (u.filter fun q => b q.1 q.2 == some v).length := by
  constructor
  · intro hp
    rw [unitConflicts, List.mem_flatMap] at hp
    obtain ⟨q, hq, hpq⟩ := hp
    revert hpq
    cases hbq : b q.1 q.2 with
    | none =>
      intro hpq
      have hpq' : p ∈ ([] : List Pos) := hpq
      cases hpq'
    | some v =>
      intro hpq
      have hpq' : p ∈ (if v ≠ 0 ∧
          ((u.takeWhile fun x => x ≠ q).any fun x => b x.1 x.2 == some v) then
          u.filter fun x => b x.1 x.2 == some v else []) := hpq
      by_cases hcond : v ≠ 0 ∧
          (((u.takeWhile fun x => x ≠ q).any fun x => b x.1 x.2 == some v) = true)
      · rw [if_pos hcond] at hpq'
        obtain ⟨hpu, hpv⟩ := List.mem_filter.mp hpq'
        obtain ⟨q', hq', hq'v⟩ := List.any_eq_true.mp hcond.2
        have hq'u : q' ∈ u := (List.takeWhile_prefix _).subset hq'
        have hq'ne : q' ≠ q := by simpa using List.mem_takeWhile_imp hq'
        refine ⟨v, hcond.1, by simpa using hpv, hpu, ?_⟩
        exact two_le_filter_length hq'u hq hq'ne hq'v (by simp [hbq])
      · rw [if_neg hcond] at hpq'
        cases hpq'
  · rintro ⟨v, hv0, hpv, hpu, h2⟩
    obtain ⟨q1, q2, hq1, hq2, hqne, hf1, hf2⟩ := filter_two_distinct hnd h2
    rw [unitConflicts, List.mem_flatMap]
    simp only [beq_iff_eq] at hf1 hf2
    rcases takeWhile_order hnd hq1 hq2 hqne with hord | hord
    · refine ⟨q2, hq2, ?_⟩
      rw [hf2]
      show p ∈ (if v ≠ 0 ∧
          ((u.takeWhile fun x => x ≠ q2).any fun x => b x.1 x.2 == some v) then
          u.filter fun x => b x.1 x.2 == some v else [])
      rw [if_pos ⟨hv0, List.any_eq_true.mpr ⟨q1, hord, by simp [hf1]⟩⟩]
      exact List.mem_filter.mpr ⟨hpu, by simp [hpv]⟩
    · refine ⟨q1, hq1, ?_⟩
      rw [hf1]
      show p ∈ (if v ≠ 0 ∧
          ((u.takeWhile fun x => x ≠ q1).any fun x => b x.1 x.2 == some v) then
          u.filter fun x => b x.1 x.2 == some v else [])
      rw [if_pos ⟨hv0, List.any_eq_true.mpr ⟨q2, hord, by simp [hf2]⟩⟩]
      exact List.mem_filter.mpr ⟨hpu, by simp [hpv]⟩

/-- Membership in the full conflict list of `checkSolution`: the positions
holding a truthy value that occurs at least twice in one of their units. -/
lemma mem_conflictCells {b : Board} {p : Pos} :
    p ∈ conflictCells b ↔
      ∃ v, v ≠ 0 ∧ b p.1 p.2 = some v ∧
        ∃ u ∈ allUnits, p ∈ u ∧
          2 ≤ (u.filter fun q => b q.1 q.2 == some v).length := by
  rw [conflictCells, List.mem_flatMap]
  constructor
  · rintro ⟨u, hu, hp⟩
    obtain ⟨v, hv0, hpv, hpu, h2⟩ := (mem_unitConflicts (allUnits_nodup u hu)).mp hp
    exact ⟨v, hv0, hpv, u, hu, hpu, h2⟩
  · rintro ⟨v, hv0, hpv, u, hu, hpu, h2⟩
    exact ⟨u, hu, (mem_unitConflicts (allUnits_nodup u hu)).mpr ⟨v, hv0, hpv, hpu, h2⟩⟩

lemma truthy_iff_of_cellOK {o : Option Nat} (h : cellOK o) :
    truthy o = true ↔ o ≠ none := by
  cases o with
  | none => simp [truthy]
  | some v =>
    simp only [truthy]
    rw [cellOK] at h
    simp
    omega

lemma isCompleteB_iff {b : Board} (hwf : wellFormed b) :
    isCompleteB b = true ↔ completeB b := by
  rw [isCompleteB, List.all_eq_true]
  constructor
  · intro h r c
    exact (truthy_iff_of_cellOK (hwf r c)).mp (h (r, c) (mem_allPositions _))
  · intro h p _
    exact (truthy_iff_of_cellOK (hwf p.1 p.2)).mpr (h p.1 p.2)

/-- A solved board has an empty conflict list. -/
lemma conflictCells_eq_nil_of_isSolved {s : Board} (hs : isSolved s) :
    conflictCells s = [] := by
  rw [List.eq_nil_iff_forall_not_mem]
  intro p hp
  obtain ⟨v, hv0, hpv, u, hu, hpu, h2⟩ := mem_conflictCells.mp hp
  have hok := isSolved_wellFormed hs p.1 p.2
  rw [hpv] at hok
  have hvn : v ∈ nums := (mem_nums_iff v).mpr hok
  have h1 := hs u hu v hvn
  omega

/-! ## Claim theorems -/

/-- C1: for every board (cells in `[1,9]` or empty) whose non-empty cells
contain no duplicate value in any row, column, or box, `solveSudoku`
terminates (fuel `82` always yields a result) and returns `true` if and
only if the board has at least one valid completion: a board agreeing with
all givens in which every row, column, and box contains each of `1..9`
exactly once. -/
theorem solve_true_iff_hasCompletion (b : Board) (hwf : wellFormed b)
    (hnd : noDups b) :
    (solveFuel 82 b).isSome ∧ ((solveSudoku b).1 = true ↔ hasCompletion b) := by
  refine ⟨solveFuel82_isSome b, ?_, ?_⟩
  · intro hs
    have hfe : solveFuel 82 b = some ((solveSudoku b).1, (solveSudoku b).2) := by
      rw [solveFuel_eq_solveSudoku]
    rw [hs] at hfe
    obtain ⟨hcomp, hinh⟩ := solveFuel_sound 82 b (solveSudoku b).2 hfe
    exact ⟨lastD (solveSudoku b).2 b, hinh.1,
      isSolved_of_complete_noDups_wf hcomp (hinh.2.1 hnd) (hinh.2.2 hwf)⟩
  · intro hcomp
    obtain ⟨snaps, hs⟩ :=
      solveFuel_complete 82 b (by have := emptyCount_le b; omega) hcomp
    have heq := solveFuel_eq_solveSudoku b
    rw [hs] at heq
    have h2 : (true, snaps) = solveSudoku b := Option.some.inj heq
    rw [← h2]

/-- C1 witness: the empty board is well-formed and duplicate-free. -/
theorem solve_true_iff_hasCompletion_witness :
    wellFormed emptyBoard ∧ noDups emptyBoard ∧
      ((solveFuel 82 emptyBoard).isSome ∧
        ((solveSudoku emptyBoard).1 = true ↔ hasCompletion emptyBoard)) :=
  ⟨by decide, by decide,
    solve_true_iff_hasCompletion emptyBoard (by decide) (by decide)⟩

/-- C2: whenever `solveSudoku` reports success on a well-formed,
duplicate-free board, the resulting board (the last emitted snapshot, or
the input if nothing was emitted) is completely filled, every row, column,
and box contains each of `1..9` exactly once, and `checkSolution` on it
yields `isValid = true` with an empty conflict list. -/
theorem solve_success_result_solved (b : Board) (hwf : wellFormed b)
    (hnd : noDups b) (hs : (solveSudoku b).1 = true) :
    completeB (resultBoard b) ∧ isSolved (resultBoard b) ∧
      checkSolution (resultBoard b) = (true, []) := by
  have hfe : solveFuel 82 b = some (true, (solveSudoku b).2) := by
    rw [solveFuel_eq_solveSudoku, ← hs]
  obtain ⟨hcomp, hinh⟩ := solveFuel_sound 82 b (solveSudoku b).2 hfe
  have hres : resultBoard b = lastD (solveSudoku b).2 b := rfl
  have hsol : isSolved (resultBoard b) := by
    rw [hres]
    exact isSolved_of_complete_noDups_wf hcomp (hinh.2.1 hnd) (hinh.2.2 hwf)
  refine ⟨by rw [hres]; exact hcomp, hsol, ?_⟩
  have hconf := conflictCells_eq_nil_of_isSolved hsol
  have hcompl : isCompleteB (resultBoard b) = true :=
    (isCompleteB_iff (isSolved_wellFormed hsol)).mpr (by rw [hres]; exact hcomp)
  rw [checkSolution, hconf, hcompl]
  rfl

/-- C2 witness: the solved reference grid with one cell emptied. -/
theorem solve_success_result_solved_witness :
    wellFormed nearlySolvedGrid ∧ noDups nearlySolvedGrid ∧
      (solveSudoku nearlySolvedGrid).1 = true ∧
      (completeB (resultBoard nearlySolvedGrid) ∧
        isSolved (resultBoard nearlySolvedGrid) ∧
        checkSolution (resultBoard nearlySolvedGrid) = (true, [])) :=
  ⟨by decide, by decide, by decide,
    solve_success_result_solved nearlySolvedGrid (by decide) (by decide) (by decide)⟩

/-- C3 counterexample: the claim says the current content of the cell
itself is ignored, so that `isValid` is true when the value occurs nowhere
else; but on a board holding `5` at `(0,0)` and nothing else, the code's
row scan sees the cell's own `5` and `isValid(b,0,0,5)` is `false`
although `5` occurs nowhere other than `(0,0)`. -/
theorem isValid_own_cell_not_ignored :
    isValid single5Board 0 0 5 = false ∧
      ¬ occursElsewhere single5Board 0 0 5 := by
  exact ⟨by decide, by decide⟩

/-- C3 amended: `isValid(board, r, c, v)` returns `false` exactly when `v`
occurs somewhere in row `r`, column `c`, or the box containing `(r,c)` —
including at the cell `(r,c)` itself, whose content is scanned like any
other cell. -/
theorem isValid_false_iff_occursInUnits (b : Board) (row col : Fin 9)
    (v : Nat) :
    isValid b row col v = false ↔ occursInUnits b row col v :=
  isValid_false_iff b row col v

/-- C4: a position is in the conflict list of `checkSolution` exactly when
the value it holds occurs at least twice in one of its units — so all
occurrences of a duplicated value are reported, and no conflict-free
position is; in particular, on the board with `5` at `(0,0)` and `(0,3)`
only, the conflict list is exactly `[(0,0), (0,3)]`. -/
theorem conflicts_iff_duplicated :
    (∀ b : Board, wellFormed b → ∀ p : Pos,
      (p ∈ (checkSolution b).2 ↔
        ∃ v, b p.1 p.2 = some v ∧ ∃ u ∈ allUnits, p ∈ u ∧
          2 ≤ (u.filter fun q => b q.1 q.2 == some v).length)) ∧
    (checkSolution dupRow5).2 =
      [(((0 : Fin 9), (0 : Fin 9)) : Pos), (((0 : Fin 9), (3 : Fin 9)) : Pos)] := by
  constructor
  · intro b hwf p
    constructor
    · intro hp
      obtain ⟨v, _, hpv, hrest⟩ := mem_conflictCells.mp hp
      exact ⟨v, hpv, hrest⟩
    · rintro ⟨v, hpv, hrest⟩
      apply mem_conflictCells.mpr
      have hok := hwf p.1 p.2
      rw [hpv] at hok
      obtain ⟨h1, h9⟩ := hok
      exact ⟨v, by omega, hpv, hrest⟩
  · decide

/-- C4 witness: the two-fives board, checked at position `(0,0)`. -/
theorem conflicts_iff_duplicated_witness :
    wellFormed dupRow5 ∧
      ((((0 : Fin 9), (0 : Fin 9)) : Pos) ∈ (checkSolution dupRow5).2 ↔
        ∃ v, dupRow5 (0 : Fin 9) (0 : Fin 9) = some v ∧
          ∃ u ∈ allUnits, (((0 : Fin 9), (0 : Fin 9)) : Pos) ∈ u ∧
            2 ≤ (u.filter fun q => dupRow5 q.1 q.2 == some v).length) :=
  ⟨by decide,
    conflicts_iff_duplicated.1 dupRow5 (by decide) ((0 : Fin 9), (0 : Fin 9))⟩

/-- C5: `checkSolution` reports `isValid = true` exactly when the board has
no empty cells and the conflict list is empty; and the conflict list is
computed irrespective of completeness: membership is characterised by the
duplicate condition alone, so a board with empty cells still reports every
conflict among its filled cells. -/
theorem checkSolution_valid_iff (b : Board) (hwf : wellFormed b) :
    ((checkSolution b).1 = true ↔ completeB b ∧ (checkSolution b).2 = []) ∧
    ∀ p : Pos, p ∈ (checkSolution b).2 ↔
      ∃ v, v ≠ 0 ∧ b p.1 p.2 = some v ∧ ∃ u ∈ allUnits, p ∈ u ∧
        2 ≤ (u.filter fun q => b q.1 q.2 == some v).length := by
  constructor
  · have h1 : (checkSolution b).1 = (isCompleteB b && (conflictCells b).isEmpty) := rfl
    rw [h1, Bool.and_eq_true, isCompleteB_iff hwf, List.isEmpty_iff]
    exact Iff.rfl
  · intro p
    exact mem_conflictCells

/-- C5 witness: the incomplete two-fives board still reports conflicts. -/
theorem checkSolution_valid_iff_witness :
    wellFormed dupRow5 ∧
      (((checkSolution dupRow5).1 = true ↔
          completeB dupRow5 ∧ (checkSolution dupRow5).2 = []) ∧
        ∀ p : Pos, p ∈ (checkSolution dupRow5).2 ↔
          ∃ v, v ≠ 0 ∧ dupRow5 p.1 p.2 = some v ∧ ∃ u ∈ allUnits, p ∈ u ∧
            2 ≤ (u.filter fun q => dupRow5 q.1 q.2 == some v).length) :=
  ⟨by decide, checkSolution_valid_iff dupRow5 (by decide)⟩

/-- C6: starting from a duplicate-free board, every board state the solver
makes observable (each emitted snapshot — the board of each recursive call
and each backtrack restoration) is itself duplicate-free: placements are
made only after validation and removals only restore the previous state. -/
theorem solver_preserves_noDups (b : Board) (hnd : noDups b) :
    ∀ s ∈ (solveSudoku b).2, noDups s := by
  intro s hs
  have hfe : solveFuel 82 b = some ((solveSudoku b).1, (solveSudoku b).2) := by
    rw [solveFuel_eq_solveSudoku]
  exact (solveFuel_snaps 82 b _ _ hfe s hs).2.1 hnd

/-- C6 witness: the solved reference grid with one cell emptied. -/
theorem solver_preserves_noDups_witness :
    noDups nearlySolvedGrid ∧
      ∀ s ∈ (solveSudoku nearlySolvedGrid).2, noDups s :=
  ⟨by decide, solver_preserves_noDups nearlySolvedGrid (by decide)⟩

/-- C7 counterexample: `solveSudoku` writes placements only into fresh
copies and returns only a boolean, so after a successful call the caller's
array is unchanged: on the reference grid with `(0,0)` emptied, the solve
succeeds, yet the caller's board still has `(0,0)` empty and differs from
the solved board (the last emitted snapshot), which has `5` there. -/
theorem solve_not_inplace :
    (solveSudoku nearlySolvedGrid).1 = true ∧
      callerBoardAfterSolve nearlySolvedGrid ≠ resultBoard nearlySolvedGrid ∧
      callerBoardAfterSolve nearlySolvedGrid 0 0 = none ∧
      resultBoard nearlySolvedGrid 0 0 = some 5 := by
  refine ⟨by decide, ?_, by decide, by decide⟩
  intro h
  have h00 := congrFun (congrFun h (0 : Fin 9)) (0 : Fin 9)
  have hc : callerBoardAfterSolve nearlySolvedGrid (0 : Fin 9) (0 : Fin 9) = none := by
    decide
  have hr : resultBoard nearlySolvedGrid (0 : Fin 9) (0 : Fin 9) = some 5 := by
    decide
  rw [hc, hr] at h00
  cases h00

/-- C7 amended: `solveSudoku` does not mutate the caller-supplied board —
placements go into per-call copies, so the caller's array is unchanged —
and on success the completed solution is delivered through the emitted
snapshots: when the input has an empty cell, at least one snapshot is
emitted and the last one is a solved board extending the input. -/
theorem solve_solution_via_snapshots (b : Board) (hwf : wellFormed b)
    (hnd : noDups b) (hs : (solveSudoku b).1 = true) (p : Pos)
    (hp : b p.1 p.2 = none) :
    callerBoardAfterSolve b = b ∧ (solveSudoku b).2 ≠ [] ∧
      isSolved (resultBoard b) ∧ extendsB b (resultBoard b) := by
  have hfe : solveFuel 82 b = some (true, (solveSudoku b).2) := by
    rw [solveFuel_eq_solveSudoku, ← hs]
  have hfind : ∃ q, findEmpty b = some q := by
    apply Option.ne_none_iff_exists'.mp
    intro hnone
    exact (findEmpty_none_iff b).mp hnone p.1 p.2 hp
  obtain ⟨q, hq⟩ := hfind
  obtain ⟨hcomp, hinh⟩ := solveFuel_sound 82 b (solveSudoku b).2 hfe
  exact ⟨rfl, solveFuel_success_snaps_ne hfe hq,
    isSolved_of_complete_noDups_wf hcomp (hinh.2.1 hnd) (hinh.2.2 hwf), hinh.1⟩

/-- C7 amended witness: the reference grid with `(0,0)` emptied. -/
theorem solve_solution_via_snapshots_witness :
    wellFormed nearlySolvedGrid ∧ noDups nearlySolvedGrid ∧
      (solveSudoku nearlySolvedGrid).1 = true ∧
      nearlySolvedGrid (0 : Fin 9) (0 : Fin 9) = none ∧
      (callerBoardAfterSolve nearlySolvedGrid = nearlySolvedGrid ∧
        (solveSudoku nearlySolvedGrid).2 ≠ [] ∧
        isSolved (resultBoard nearlySolvedGrid) ∧
        extendsB nearlySolvedGrid (resultBoard nearlySolvedGrid)) :=
  ⟨by decide, by decide, by decide, by decide,
    solve_solution_via_snapshots nearlySolvedGrid (by decide) (by decide)
      (by decide) ((0 : Fin 9), (0 : Fin 9)) (by decide)⟩

/-- C8: the solver terminates on every board, duplicates in the givens
included: a board has at most 81 empty cells, fuel exceeding the number of
empty cells (in particular the fixed fuel 82) always yields a result, and
every placement at an empty cell strictly decreases the number of empty
cells, bounding the recursion depth. -/
theorem solve_terminates_bounded (b : Board) :
    emptyCount b ≤ 81 ∧ (solveFuel (emptyCount b + 1) b).isSome ∧
      (solveFuel 82 b).isSome ∧
      ∀ row col : Fin 9, ∀ num : Nat, b row col = none →
        emptyCount (place b row col (some num)) < emptyCount b :=
  ⟨emptyCount_le b, solveFuel_isSome _ b (by omega), solveFuel82_isSome b,
    fun row col num hb => emptyCount_place_lt b row col num hb⟩

/-- C8 witness: instantiated on the empty board and a placement at `(0,0)`. -/
theorem solve_terminates_bounded_witness :
    emptyCount emptyBoard ≤ 81 ∧
      emptyCount (place emptyBoard 0 0 (some 1)) < emptyCount emptyBoard :=
  ⟨(solve_terminates_bounded emptyBoard).1,
    (solve_terminates_bounded emptyBoard).2.2.2 0 0 1 (by decide)⟩

/-- C9: on a board with no empty cells, `solveSudoku` returns `true` at
once with no snapshot emitted (hence no placement and no removal), even
when the filled board contains duplicates — the solver never re-validates
already-filled cells. -/
theorem solve_complete_board_immediate (b : Board) (hc : completeB b) :
    solveSudoku b = (true, []) := by
  have hfe : findEmpty b = none := (findEmpty_none_iff b).mpr hc
  have h82 : solveFuel 82 b = some (true, []) := by
    rw [show (82 : Nat) = 81 + 1 from rfl, solveFuel_succ, hfe]
  have h := solveFuel_eq_solveSudoku b
  rw [h82] at h
  exact (Option.some.inj h).symm

/-- C9 witness: the all-fives board is complete and full of duplicates. -/
theorem solve_complete_board_immediate_witness :
    completeB fullBoard5 ∧ solveSudoku fullBoard5 = (true, []) :=
  ⟨by decide, solve_complete_board_immediate fullBoard5 (by decide)⟩

/-- C10: the solver never overwrites a filled cell: every emitted snapshot,
and on success the resulting board, agrees with the input board on every
cell that was non-empty in the input — only input-empty cells are ever
assigned or cleared. -/
theorem solve_preserves_givens (b : Board) :
    (∀ s ∈ (solveSudoku b).2, extendsB b s) ∧
      ((solveSudoku b).1 = true → extendsB b (resultBoard b)) := by
  have hfe : solveFuel 82 b = some ((solveSudoku b).1, (solveSudoku b).2) := by
    rw [solveFuel_eq_solveSudoku]
  constructor
  · intro s hs
    exact (solveFuel_snaps 82 b _ _ hfe s hs).1
  · intro hs
    rw [hs] at hfe
    exact (solveFuel_sound 82 b (solveSudoku b).2 hfe).2.1

/-- C10 witness: the reference grid with `(0,0)` emptied. -/
theorem solve_preserves_givens_witness :
    (∀ s ∈ (solveSudoku nearlySolvedGrid).2, extendsB nearlySolvedGrid s) ∧
      extendsB nearlySolvedGrid (resultBoard nearlySolvedGrid) :=
  ⟨(solve_preserves_givens nearlySolvedGrid).1,
    (solve_preserves_givens nearlySolvedGrid).2 (by decide)⟩

end Sudoku
